import Mathlib

/-!
Shallow embedding of the interactive configuration state machine of the
`pocket-1-click-gateway` CLI (file `src/metadata.ts`), together with proofs of
the specified properties.  JavaScript strings are modelled as Lean `String`
(lists of characters); the pieces of the prompt library that the code relies on
(`p.text` / `p.select` / `p.multiselect` returning either a value or a
cancellation, `p.group` short-circuiting to a cancelled result, validators
re-prompting until the input passes) are modelled by interpreters that consume
an explicit script of user inputs.
-/

namespace Gateway

/-- Whitespace predicate used to model JavaScript's `String.prototype.trim`. -/
def jsSpace (c : Char) : Bool := c.isWhitespace

/-- Character-list version of `input.trim()`: drop whitespace on both ends. -/
def trimChars (cs : List Char) : List Char :=
  ((cs.dropWhile jsSpace).reverse.dropWhile jsSpace).reverse

/-- Model of JavaScript `s.trim()`. -/
def jsTrim (s : String) : String := ⟨trimChars s.data⟩

/-- Model of JavaScript `s.toLowerCase()` (ASCII case folding). -/
def jsLower (s : String) : String := ⟨s.data.map Char.toLower⟩

/-- Model of `t.replace(/^\s*https?:\/\//, "")`: strip one leading
`http://` or `https://` scheme (after optional leading whitespace);
if the pattern does not match, the string is unchanged. -/
def stripScheme (cs : List Char) : List Char :=
  match cs.dropWhile jsSpace with
  | 'h' :: 't' :: 't' :: 'p' :: 's' :: ':' :: '/' :: '/' :: rest => rest
  | 'h' :: 't' :: 't' :: 'p' :: ':' :: '/' :: '/' :: rest => rest
  | _ => cs

/-- Model of `t.replace(/\/+$/, "")`: remove every trailing slash. -/
def dropTrailSlashes (cs : List Char) : List Char :=
  (cs.reverse.dropWhile (fun c => c == '/')).reverse

/-- Embedding of `normalizeDomain` (`metadata.ts`): falsy input gives `null`;
otherwise trim, lower-case, strip one leading scheme and all trailing slashes,
and turn the empty result into `null`. -/
def normalizeDomain (input : String) : Option String :=
  if input = "" then none
  else
    let t := jsLower (jsTrim input)
    let t2 := dropTrailSlashes (stripScheme t.data)
    if t2 = [] then none else some ⟨t2⟩

/-- A character allowed inside a domain label: `[a-z0-9-]` under the `i` flag. -/
def labelChar (c : Char) : Bool := c.isAlphanum || c == '-'

/-- Check that all characters but the last match `[a-z0-9-]` and the last
matches `[a-z0-9]` — the tail of the label pattern
`[a-z0-9]([a-z0-9-]{0,61}[a-z0-9])?`. -/
def middleOk : List Char → Bool
  | [] => true
  | [c] => c.isAlphanum
  | c :: rest => labelChar c && middleOk rest

/-- One dotted label of the FQDN regex in `domainLooksValid`:
`[a-z0-9]([a-z0-9-]{0,61}[a-z0-9])?` under the `i` flag, i.e. length 1–63,
first and last character alphanumeric, interior characters `[a-z0-9-]`. -/
def labelOk : List Char → Bool
  | [] => false
  | [c] => c.isAlphanum
  | c :: rest => c.isAlphanum && decide (rest.length ≤ 62) && middleOk rest

/-- The trailing top label: `[a-z]{2,}` under the `i` flag. -/
def topOk (cs : List Char) : Bool :=
  decide (2 ≤ cs.length) && cs.all (fun c => c.isAlpha)

/-- Split a character list at every `'.'` (each dot is a separator, so
`n` dots yield `n + 1` parts, possibly empty). -/
def splitDots : List Char → List (List Char)
  | [] => [[]]
  | c :: rest =>
    if c == '.' then [] :: splitDots rest
    else
      match splitDots rest with
      | [] => [[c]]
      | h :: t => (c :: h) :: t

/-- The FQDN half of `domainLooksValid`:
`/^(?!-)([a-z0-9]([a-z0-9-]{0,61}[a-z0-9])?\.)+[a-z]{2,}$/i`.  The anchored
alternation of dot-free labels is rendered by splitting at the dots: at least
two parts, every part but the last a valid label, the last part a top label.
The leading `(?!-)` lookahead is kept explicitly. -/
def fqdnOk (cs : List Char) : Bool :=
  (match cs with
   | '-' :: _ => false
   | _ => true) &&
  (let parts := splitDots cs
   decide (2 ≤ parts.length) &&
   parts.dropLast.all labelOk &&
   (match parts.getLast? with
    | some t => topOk t
    | none => false))

/-- The localhost half of `domainLooksValid`:
`/^(localhost|localhost:\d{1,5})$/i`. -/
def localhostOk (cs : List Char) : Bool :=
  match cs.map Char.toLower with
  | ['l', 'o', 'c', 'a', 'l', 'h', 'o', 's', 't'] => true
  | 'l' :: 'o' :: 'c' :: 'a' :: 'l' :: 'h' :: 'o' :: 's' :: 't' :: ':' :: ds =>
    decide (1 ≤ ds.length) && decide (ds.length ≤ 5) &&
      ds.all (fun c => c.isDigit)
  | _ => false

/-- Embedding of `domainLooksValid` (`metadata.ts`, lines 27–32). -/
def domainLooksValid (val : String) : Bool :=
  fqdnOk val.data || localhostOk val.data

/-- A label as described by the spec's grammar: "each label alphanumeric
possibly containing hyphens but never hyphen-leading" — first character
alphanumeric, remaining characters alphanumeric or hyphen, no length bound. -/
def specLabelOk : List Char → Bool
  | [] => false
  | c :: rest => c.isAlphanum && rest.all labelChar

/-- The domain grammar exactly as the spec words it: dot-separated labels,
each alphanumeric possibly hyphenated but not hyphen-leading, top label
letters of length at least two, or the literal `localhost` optionally
followed by `:` and one to five digits. -/
def specDomainGrammar (val : String) : Bool :=
  (let parts := splitDots val.data
   decide (2 ≤ parts.length) &&
   parts.dropLast.all specLabelOk &&
   (match parts.getLast? with
    | some t => topOk t
    | none => false)) ||
  localhostOk val.data

/-- The normalization pipeline exactly as the spec words it: trim,
lower-case, strip one leading `http://`/`https://`, strip all trailing
slashes; null if the result is blank. -/
def specNormalizeDomain (v : String) : Option String :=
  let t := dropTrailSlashes (stripScheme (jsLower (jsTrim v)).data)
  if t = [] then none else some ⟨t⟩

/-! ## Data model (`ProjectMetadata` and its enumerated fields) -/

/-- `type Network = "mainnet" | "testnet"`. -/
inductive Network
  | mainnet
  | testnet
deriving DecidableEq

/-- `type DeploymentType = "vps" | "local"`. -/
inductive DeploymentType
  | vps
  | local
deriving DecidableEq

/-- `type FrontendHosting = "same-vps" | "vercel" | "skip"`. -/
inductive FrontendHosting
  | sameVps
  | vercel
  | skip
deriving DecidableEq

/-- `type Integration = "stripe" | "auth"`. -/
inductive Integration
  | stripe
  | auth
deriving DecidableEq

/-- `interface ProjectMetadata` from `metadata.ts`.  The optional
`domain?: string | null` field is an `Option String`. -/
structure ProjectMetadata where
  projectName : String
  network : Network
  deploymentType : DeploymentType
  frontendHosting : FrontendHosting
  domain : Option String
  integrations : List Integration
  createdAtIso : String
deriving DecidableEq

/-- Embedding of `normalizeFrontendHosting` (`metadata.ts`, lines 55–60):
if the deployment switched to local-only, `same-vps` no longer makes sense
and is rewritten to `vercel`.  The in-place mutation is rendered as a
record update. -/
def normalizeFrontendHosting (meta : ProjectMetadata) : ProjectMetadata :=
  if meta.deploymentType = DeploymentType.local ∧
      meta.frontendHosting = FrontendHosting.sameVps then
    { meta with frontendHosting := FrontendHosting.vercel }
  else meta

/-! ## Field validators -/

/-- Rejection message of the project-name validator for blank input. -/
def msgNameRequired : String := "Please enter a project name."

/-- Rejection message of the project-name validator for over-long input. -/
def msgNameTooLong : String := "Keep it under 64 characters."

/-- Rejection message of the domain validator. -/
def msgBadDomain : String :=
  "Please enter a valid domain (e.g., api.example.com) or leave blank."

/-- The `validate` callback of the project-name prompt: reject when the
trimmed value is empty or the (untrimmed) value is longer than 64
characters; `none` means the input is accepted. -/
def validateProjectName (v : String) : Option String :=
  if jsTrim v = "" then some msgNameRequired
  else if 64 < v.data.length then some msgNameTooLong
  else none

/-- The `validate` callback of the domain prompt: input that normalizes to
null is accepted (optional field, blank clears it); otherwise the normalized
value must pass `domainLooksValid`. -/
def validateDomain (v : String) : Option String :=
  match normalizeDomain v with
  | none => none
  | some t => if domainLooksValid t then none else some msgBadDomain

/-! ## Prompt-library model

Every prompt either yields a value or is cancelled (`isCancel`).  The user's
behaviour is an explicit script of inputs: `cancel` dismisses the current
prompt, `accept` submits the prompt's initial/default value, and the typed
constructors supply an explicit value.  A text prompt whose validator
rejects the submitted value re-prompts, consuming the input; a script whose
next entry does not fit the current prompt denotes no run at all (`none`). -/

/-- Result of one prompt: the library's value-or-cancel. -/
inductive Ans (α : Type)
  | cancel
  | value (a : α)
deriving DecidableEq

/-- Review-prompt actions offered by `editLoop`. -/
inductive ReviewAction
  | confirm
  | edit
  | startOver
  | cancel
deriving DecidableEq

/-- The six editable fields offered by the field-selection prompt. -/
inductive Field
  | projectName
  | network
  | deploymentType
  | frontendHosting
  | domain
  | integrations
deriving DecidableEq

/-- Terminal outcome of `editLoop`. -/
inductive EditOutcome
  | confirm
  | startOver
  | cancel
deriving DecidableEq

/-- One scripted user input. -/
inductive Input
  | cancel
  | accept
  | str (s : String)
  | net (n : Network)
  | dep (d : DeploymentType)
  | fh (h : FrontendHosting)
  | ints (l : List Integration)
  | act (a : ReviewAction)
  | fld (f : Field)
deriving DecidableEq

/-- A user-input script. -/
abbrev Script := List Input

/-- Interpreter for `p.text` with a validator and an initial value:
`cancel` dismisses, `accept` submits the initial value, `str v` submits `v`;
a value rejected by the validator re-displays the prompt. -/
def runText (d : String) (validate : String → Option String) :
    Script → Option (Ans String × Script)
  | [] => none
  | Input.cancel :: r => some (Ans.cancel, r)
  | Input.accept :: r =>
    match validate d with
    | none => some (Ans.value d, r)
    | some _ => runText d validate r
  | Input.str v :: r =>
    match validate v with
    | none => some (Ans.value v, r)
    | some _ => runText d validate r
  | _ => none

/-- Interpreter for `p.select` with initial value `d` and option list
`opts`: `accept` picks the highlighted initial value, an explicit choice
must be one of the offered options. -/
def runSelect {α : Type} [DecidableEq α] (d : α) (opts : List α)
    (ext : Input → Option α) : Script → Option (Ans α × Script)
  | [] => none
  | Input.cancel :: r => some (Ans.cancel, r)
  | Input.accept :: r => some (Ans.value d, r)
  | i :: r =>
    match ext i with
    | some a => if a ∈ opts then some (Ans.value a, r) else none
    | none => none

/-- Interpreter for `p.multiselect` (`required: false`) with initially
toggled values `d`. -/
def runMulti (d : List Integration) :
    Script → Option (Ans (List Integration) × Script)
  | [] => none
  | Input.cancel :: r => some (Ans.cancel, r)
  | Input.accept :: r => some (Ans.value d, r)
  | Input.ints l :: r => some (Ans.value l, r)
  | _ => none

/-- Script entry expected by a network select. -/
def extractNet : Input → Option Network
  | Input.net n => some n
  | _ => none

/-- Script entry expected by a deployment-type select. -/
def extractDep : Input → Option DeploymentType
  | Input.dep d => some d
  | _ => none

/-- Script entry expected by a frontend-hosting select. -/
def extractFh : Input → Option FrontendHosting
  | Input.fh h => some h
  | _ => none

/-- Script entry expected by the review select. -/
def extractAct : Input → Option ReviewAction
  | Input.act a => some a
  | _ => none

/-- Script entry expected by the field select. -/
def extractFld : Input → Option Field
  | Input.fld f => some f
  | _ => none

/-- Options of the network select. -/
def networkOptions : List Network := [Network.mainnet, Network.testnet]

/-- Options of the deployment-type select. -/
def deploymentOptions : List DeploymentType :=
  [DeploymentType.vps, DeploymentType.local]

/-- Options of the frontend-hosting select, conditioned on the deployment
type (`prompts.frontendHosting`): local-only deployments are not offered
`same-vps`. -/
def fhOptions : DeploymentType → List FrontendHosting
  | DeploymentType.local => [FrontendHosting.vercel, FrontendHosting.skip]
  | DeploymentType.vps =>
    [FrontendHosting.sameVps, FrontendHosting.vercel, FrontendHosting.skip]

/-- Initial value of the frontend-hosting select during the first pass:
`deploymentType === "local" ? "vercel" : "same-vps"`. -/
def fhDefault : DeploymentType → FrontendHosting
  | DeploymentType.local => FrontendHosting.vercel
  | DeploymentType.vps => FrontendHosting.sameVps

/-- Options of the review select. -/
def reviewOptions : List ReviewAction :=
  [ReviewAction.confirm, ReviewAction.edit, ReviewAction.startOver,
   ReviewAction.cancel]

/-- Options of the field select (first option is highlighted by default). -/
def fieldOptions : List Field :=
  [Field.projectName, Field.network, Field.deploymentType,
   Field.frontendHosting, Field.domain, Field.integrations]

/-! ## The collection pass, the review/edit loop and the session controller -/

/-- Embedding of `askAll` (`metadata.ts`, lines 150–183): the `p.group`
chain asks project name, network, deployment type, frontend hosting
(options depending on the deployment type already chosen in this pass),
domain and integrations in that fixed order; a cancellation at any prompt
short-circuits the pass to a cancelled result (`some (none, ·)`), which
the caller observes through `isCancel`.  On success the metadata record is
built (name trimmed, domain normalized, `createdAtIso := now`) and
`normalizeFrontendHosting` is applied once. -/
def askAll (now : String) (s : Script) :
    Option (Option ProjectMetadata × Script) :=
  match runText ("") validateProjectName s with
  | none => none
  | some (Ans.cancel, r) => some (none, r)
  | some (Ans.value pn, r1) =>
    match runSelect Network.testnet networkOptions extractNet r1 with
    | none => none
    | some (Ans.cancel, r) => some (none, r)
    | some (Ans.value net, r2) =>
      match runSelect DeploymentType.vps deploymentOptions extractDep r2 with
      | none => none
      | some (Ans.cancel, r) => some (none, r)
      | some (Ans.value dep, r3) =>
        match runSelect (fhDefault dep) (fhOptions dep) extractFh r3 with
        | none => none
        | some (Ans.cancel, r) => some (none, r)
        | some (Ans.value fh, r4) =>
          match runText ("") validateDomain r4 with
          | none => none
          | some (Ans.cancel, r) => some (none, r)
          | some (Ans.value dom, r5) =>
            match runMulti [] r5 with
            | none => none
            | some (Ans.cancel, r) => some (none, r)
            | some (Ans.value ints, r6) =>
              some (some (normalizeFrontendHosting
                { projectName := jsTrim pn
                  network := net
                  deploymentType := dep
                  frontendHosting := fh
                  domain := normalizeDomain dom
                  integrations := ints
                  createdAtIso := now }), r6)

/-- Initial value of the frontend-hosting select inside the edit loop:
`meta.deploymentType === "local" && meta.frontendHosting === "same-vps"
? "vercel" : meta.frontendHosting`. -/
def fhEditInitial (m : ProjectMetadata) : FrontendHosting :=
  if m.deploymentType = DeploymentType.local ∧
      m.frontendHosting = FrontendHosting.sameVps then FrontendHosting.vercel
  else m.frontendHosting

/-- One single-field edit of `editLoop` (`metadata.ts`, lines 220–246):
re-prompt the chosen field seeded with its current value; a cancelled
re-prompt leaves the record untouched; a successful one mutates exactly
that field (re-normalizing after a deployment-type change). -/
def editField (m : ProjectMetadata) : Field → Script →
    Option (ProjectMetadata × Script)
  | Field.projectName, s =>
    match runText m.projectName validateProjectName s with
    | none => none
    | some (Ans.cancel, r) => some (m, r)
    | some (Ans.value v, r) => some ({ m with projectName := jsTrim v }, r)
  | Field.network, s =>
    match runSelect m.network networkOptions extractNet s with
    | none => none
    | some (Ans.cancel, r) => some (m, r)
    | some (Ans.value v, r) => some ({ m with network := v }, r)
  | Field.deploymentType, s =>
    match runSelect m.deploymentType deploymentOptions extractDep s with
    | none => none
    | some (Ans.cancel, r) => some (m, r)
    | some (Ans.value v, r) =>
      some (normalizeFrontendHosting { m with deploymentType := v }, r)
  | Field.frontendHosting, s =>
    match runSelect (fhEditInitial m) (fhOptions m.deploymentType)
        extractFh s with
    | none => none
    | some (Ans.cancel, r) => some (m, r)
    | some (Ans.value v, r) => some ({ m with frontendHosting := v }, r)
  | Field.domain, s =>
    match runText (m.domain.getD ("")) validateDomain s with
    | none => none
    | some (Ans.cancel, r) => some (m, r)
    | some (Ans.value v, r) => some ({ m with domain := normalizeDomain v }, r)
  | Field.integrations, s =>
    match runMulti m.integrations s with
    | none => none
    | some (Ans.cancel, r) => some (m, r)
    | some (Ans.value v, r) => some ({ m with integrations := v }, r)

/-- Embedding of `editLoop` (`metadata.ts`, lines 185–248): show the
summary, take a review action (`confirm` highlighted), terminate on
confirm / start-over / cancel (also when the review select itself is
cancelled), and on `edit` pick a field and run `editField`; a cancelled
field selection loops back with the record untouched.  The `while (true)`
loop is step-indexed by a fuel argument; `none` means the script ended
(or mismatched) before a terminal action. -/
def editLoop : Nat → ProjectMetadata → Script →
    Option ((EditOutcome × ProjectMetadata) × Script)
  | 0, _, _ => none
  | Nat.succ fuel, m, s =>
    match runSelect ReviewAction.confirm reviewOptions extractAct s with
    | none => none
    | some (Ans.cancel, r) => some ((EditOutcome.cancel, m), r)
    | some (Ans.value ReviewAction.confirm, r) =>
      some ((EditOutcome.confirm, m), r)
    | some (Ans.value ReviewAction.startOver, r) =>
      some ((EditOutcome.startOver, m), r)
    | some (Ans.value ReviewAction.cancel, r) =>
      some ((EditOutcome.cancel, m), r)
    | some (Ans.value ReviewAction.edit, r) =>
      match runSelect Field.projectName fieldOptions extractFld r with
      | none => none
      | some (Ans.cancel, r2) => editLoop fuel m r2
      | some (Ans.value f, r2) =>
        match editField m f r2 with
        | none => none
        | some (m2, r3) => editLoop fuel m2 r3

/-- Embedding of the `while (true)` loop of `collectProjectMetadata`
(`metadata.ts`, lines 251–273), step-indexed by fuel.  `clock` supplies
the `new Date().toISOString()` value of the `k`-th collection pass.
A cancelled pass or a cancelled review returns `some (none, ·)` (the
caller's `null`); `start-over` re-runs the whole collection. -/
def collectGo (clock : Nat → String) : Nat → Nat → Script →
    Option (Option ProjectMetadata × Script)
  | _, 0, _ => none
  | k, Nat.succ fuel, s =>
    match askAll (clock k) s with
    | none => none
    | some (none, r) => some (none, r)
    | some (some m, r) =>
      match editLoop (Nat.succ fuel) m r with
      | none => none
      | some ((EditOutcome.confirm, m2), r2) => some (some m2, r2)
      | some ((EditOutcome.cancel, _), r2) => some (none, r2)
      | some ((EditOutcome.startOver, _), r2) => collectGo clock (k + 1) fuel r2

/-- Embedding of the exported `collectProjectMetadata`: run the
collect/review loop from pass 0 with enough fuel for the given script. -/
def collectProjectMetadata (clock : Nat → String) (s : Script) :
    Option (Option ProjectMetadata × Script) :=
  collectGo clock 0 (s.length + 1) s

/-! ## Invariants -/

/-- Invariant I2 / property P2: local-only deployments never claim
same-host frontend hosting. -/
def hostingOk (m : ProjectMetadata) : Prop :=
  m.deploymentType = DeploymentType.local →
    m.frontendHosting ≠ FrontendHosting.sameVps

/-- Invariant I1 / property P1: the stored project name is trimmed and its
length lies in `[1, 64]`. -/
def nameOk (m : ProjectMetadata) : Prop :=
  m.projectName = jsTrim m.projectName ∧
  1 ≤ m.projectName.data.length ∧ m.projectName.data.length ≤ 64

/-- Invariant I3 / property P3: a present domain passes the validator's
grammar, and hence also the grammar as the spec words it. -/
def domOk (m : ProjectMetadata) : Prop :=
  ∀ d, m.domain = some d →
    domainLooksValid d = true ∧ specDomainGrammar d = true

/-! ## Helper lemmas: lists and trimming -/

theorem length_dropWhile_le' (p : Char → Bool) (l : List Char) :
    (l.dropWhile p).length ≤ l.length := by
  induction l with
  | nil => simp
  | cons a l ih =>
    rw [List.dropWhile_cons]
    split
    · exact Nat.le_trans ih (Nat.le_succ _)
    · simp

theorem dropWhile_cons_false (p : Char → Bool) (l : List Char) (c : Char)
    (t : List Char) (h : l.dropWhile p = c :: t) : p c = false := by
  induction l with
  | nil => simp at h
  | cons a l ih =>
    rw [List.dropWhile_cons] at h
    split at h
    · exact ih h
    · cases h
      simp_all

theorem dropWhile_idem' (p : Char → Bool) (l : List Char) :
    (l.dropWhile p).dropWhile p = l.dropWhile p := by
  induction l with
  | nil => simp
  | cons a l ih =>
    rw [List.dropWhile_cons]
    split
    · exact ih
    · rw [List.dropWhile_cons]
      simp_all

theorem dropWhile_eq_self_of_head (p : Char → Bool) (l : List Char)
    (h : ∀ c t, l = c :: t → p c = false) : l.dropWhile p = l := by
  cases l with
  | nil => simp
  | cons a t =>
    rw [List.dropWhile_cons, h a t rfl]
    simp

theorem trimChars_length_le (cs : List Char) :
    (trimChars cs).length ≤ cs.length := by
  unfold trimChars
  calc ((cs.dropWhile jsSpace).reverse.dropWhile jsSpace).reverse.length
      = ((cs.dropWhile jsSpace).reverse.dropWhile jsSpace).length := by
        simp
    _ ≤ (cs.dropWhile jsSpace).reverse.length :=
        length_dropWhile_le' _ _
    _ = (cs.dropWhile jsSpace).length := by simp
    _ ≤ cs.length := length_dropWhile_le' _ _

theorem trimChars_front (cs : List Char) (c : Char) (t : List Char)
    (h : trimChars cs = c :: t) : jsSpace c = false := by
  unfold trimChars at h
  have hsplit :
      (cs.dropWhile jsSpace).reverse.takeWhile jsSpace ++
        (cs.dropWhile jsSpace).reverse.dropWhile jsSpace =
        (cs.dropWhile jsSpace).reverse :=
    List.takeWhile_append_dropWhile jsSpace _
  have hcs : cs.dropWhile jsSpace =
      ((cs.dropWhile jsSpace).reverse.dropWhile jsSpace).reverse ++
        ((cs.dropWhile jsSpace).reverse.takeWhile jsSpace).reverse := by
    conv_lhs => rw [← List.reverse_reverse (cs.dropWhile jsSpace), ← hsplit]
    rw [List.reverse_append]
  rw [h] at hcs
  exact dropWhile_cons_false jsSpace cs c _ (by simpa using hcs)

theorem trimChars_idem (cs : List Char) :
    trimChars (trimChars cs) = trimChars cs := by
  have h1 : (trimChars cs).dropWhile jsSpace = trimChars cs :=
    dropWhile_eq_self_of_head jsSpace (trimChars cs)
      (fun c t h => trimChars_front cs c t h)
  show ((((trimChars cs).dropWhile jsSpace).reverse.dropWhile
      jsSpace).reverse) = trimChars cs
  rw [h1]
  unfold trimChars
  rw [List.reverse_reverse, dropWhile_idem']

theorem jsTrim_idem (s : String) : jsTrim (jsTrim s) = jsTrim s := by
  unfold jsTrim
  exact congrArg String.mk (trimChars_idem s.data)

theorem jsTrim_length_le (s : String) :
    (jsTrim s).data.length ≤ s.data.length :=
  trimChars_length_le s.data

/-! ## Helper lemmas: validators -/

theorem validateProjectName_none (v : String)
    (h : validateProjectName v = none) :
    jsTrim v ≠ "" ∧ v.data.length ≤ 64 := by
  unfold validateProjectName at h
  split at h
  · simp at h
  · split at h
    · simp at h
    · constructor
      · assumption
      · omega

theorem nameOk_of_valid (v : String) (h : validateProjectName v = none) :
    (jsTrim v) = jsTrim (jsTrim v) ∧
    1 ≤ (jsTrim v).data.length ∧ (jsTrim v).data.length ≤ 64 := by
  obtain ⟨hne, hlen⟩ := validateProjectName_none v h
  refine ⟨(jsTrim_idem v).symm, ?_, Nat.le_trans (jsTrim_length_le v) hlen⟩
  by_contra hlt
  apply hne
  have h0 : (jsTrim v).data.length = 0 := by omega
  cases hd : (jsTrim v).data with
  | nil =>
    cases hv : jsTrim v with
    | mk d => simp_all [String.ext_iff]
  | cons a t => rw [hd] at h0; simp at h0

theorem validateDomain_none (v : String) (h : validateDomain v = none) :
    normalizeDomain v = none ∨
    ∃ t, normalizeDomain v = some t ∧ domainLooksValid t = true := by
  unfold validateDomain at h
  split at h
  · left; assumption
  · right
    rename_i t ht
    refine ⟨t, ht, ?_⟩
    by_contra hb
    simp [hb] at h

theorem validateDomain_of_blank (v : String) (h : normalizeDomain v = none) :
    validateDomain v = none := by
  unfold validateDomain
  rw [h]

/-! ## Helper lemmas: the spec's domain grammar subsumes the validator's -/

theorem middleOk_all (l : List Char) (h : middleOk l = true) :
    l.all labelChar = true := by
  induction l with
  | nil => simp
  | cons a t ih =>
    cases t with
    | nil =>
      unfold middleOk at h
      simp [labelChar, h]
    | cons b t2 =>
      unfold middleOk at h
      simp only [Bool.and_eq_true] at h
      simp only [List.all_cons, Bool.and_eq_true]
      exact ⟨h.1, by simpa using ih h.2⟩

theorem labelOk_spec (l : List Char) (h : labelOk l = true) :
    specLabelOk l = true := by
  cases l with
  | nil => simp [labelOk] at h
  | cons a t =>
    cases t with
    | nil =>
      have h' : a.isAlphanum = true := by simpa [labelOk] using h
      simp [specLabelOk, h']
    | cons b t2 =>
      unfold labelOk at h
      simp only [Bool.and_eq_true] at h
      unfold specLabelOk
      simp only [Bool.and_eq_true]
      exact ⟨h.1.1, middleOk_all _ h.2⟩

/-! ## Helper lemmas: prompt interpreters -/

theorem runText_value (d : String) (validate : String → Option String) :
    ∀ s v r, runText d validate s = some (Ans.value v, r) →
      validate v = none := by
  intro s
  induction s with
  | nil => intro v r h; simp [runText] at h
  | cons i t ih =>
    intro v r h
    cases i with
    | cancel => simp [runText] at h
    | accept =>
      simp only [runText] at h
      split at h
      · rename_i hv
        simp only [Option.some.injEq, Prod.mk.injEq, Ans.value.injEq] at h
        rw [← h.1]
        assumption
      · exact ih v r h
    | str w =>
      simp only [runText] at h
      split at h
      · rename_i hv
        simp only [Option.some.injEq, Prod.mk.injEq, Ans.value.injEq] at h
        rw [← h.1]
        assumption
      · exact ih v r h
    | net n => simp [runText] at h
    | dep dd => simp [runText] at h
    | fh hh => simp [runText] at h
    | ints l => simp [runText] at h
    | act a => simp [runText] at h
    | fld f => simp [runText] at h

theorem runSelect_value {α : Type} [DecidableEq α] (d : α) (opts : List α)
    (ext : Input → Option α) :
    ∀ s a r, runSelect d opts ext s = some (Ans.value a, r) →
      a = d ∨ a ∈ opts := by
  intro s a r h
  cases s with
  | nil => simp [runSelect] at h
  | cons i t =>
    cases i with
    | cancel => simp [runSelect] at h
    | accept =>
      simp only [runSelect, Option.some.injEq, Prod.mk.injEq,
        Ans.value.injEq] at h
      left
      exact h.1.symm
    | str w =>
      simp only [runSelect] at h
      split at h
      · split at h
        · rename_i b hext hmem
          simp only [Option.some.injEq, Prod.mk.injEq, Ans.value.injEq] at h
          right
          rw [← h.1]
          assumption
        · simp at h
      · simp at h
    | net n =>
      simp only [runSelect] at h
      split at h
      · split at h
        · rename_i b hext hmem
          simp only [Option.some.injEq, Prod.mk.injEq, Ans.value.injEq] at h
          right
          rw [← h.1]
          assumption
        · simp at h
      · simp at h
    | dep dd =>
      simp only [runSelect] at h
      split at h
      · split at h
        · rename_i b hext hmem
          simp only [Option.some.injEq, Prod.mk.injEq, Ans.value.injEq] at h
          right
          rw [← h.1]
          assumption
        · simp at h
      · simp at h
    | fh hh =>
      simp only [runSelect] at h
      split at h
      · split at h
        · rename_i b hext hmem
          simp only [Option.some.injEq, Prod.mk.injEq, Ans.value.injEq] at h
          right
          rw [← h.1]
          assumption
        · simp at h
      · simp at h
    | ints l =>
      simp only [runSelect] at h
      split at h
      · split at h
        · rename_i b hext hmem
          simp only [Option.some.injEq, Prod.mk.injEq, Ans.value.injEq] at h
          right
          rw [← h.1]
          assumption
        · simp at h
      · simp at h
    | act a2 =>
      simp only [runSelect] at h
      split at h
      · split at h
        · rename_i b hext hmem
          simp only [Option.some.injEq, Prod.mk.injEq, Ans.value.injEq] at h
          right
          rw [← h.1]
          assumption
        · simp at h
      · simp at h
    | fld f =>
      simp only [runSelect] at h
      split at h
      · split at h
        · rename_i b hext hmem
          simp only [Option.some.injEq, Prod.mk.injEq, Ans.value.injEq] at h
          right
          rw [← h.1]
          assumption
        · simp at h
      · simp at h

theorem domainLooksValid_spec (d : String) (h : domainLooksValid d = true) :
    specDomainGrammar d = true := by
  unfold domainLooksValid at h
  unfold specDomainGrammar
  simp only [Bool.or_eq_true] at h ⊢
  cases h with
  | inl hf =>
    left
    unfold fqdnOk at hf
    simp only [Bool.and_eq_true] at hf
    obtain ⟨-, hparts⟩ := hf
    simp only [Bool.and_eq_true] at hparts ⊢
    refine ⟨⟨hparts.1.1, ?_⟩, hparts.2⟩
    have hall := hparts.1.2
    simp only [List.all_eq_true] at hall ⊢
    exact fun x hx => labelOk_spec x (hall x hx)
  | inr hl => right; exact hl

/-! ## Helper lemmas: the normalizer -/

theorem normalizeFrontendHosting_fields (m : ProjectMetadata) :
    (normalizeFrontendHosting m).projectName = m.projectName ∧
    (normalizeFrontendHosting m).network = m.network ∧
    (normalizeFrontendHosting m).deploymentType = m.deploymentType ∧
    (normalizeFrontendHosting m).domain = m.domain ∧
    (normalizeFrontendHosting m).integrations = m.integrations ∧
    (normalizeFrontendHosting m).createdAtIso = m.createdAtIso := by
  unfold normalizeFrontendHosting
  split <;> simp

theorem hostingOk_normalize (m : ProjectMetadata) :
    hostingOk (normalizeFrontendHosting m) := by
  unfold normalizeFrontendHosting hostingOk
  split
  · intro _
    simp
  · rename_i hcond
    intro hl hs
    exact hcond ⟨hl, hs⟩

theorem normalize_rewrites (m : ProjectMetadata)
    (hl : m.deploymentType = DeploymentType.local)
    (hs : m.frontendHosting = FrontendHosting.sameVps) :
    normalizeFrontendHosting m =
      { m with frontendHosting := FrontendHosting.vercel } := by
  unfold normalizeFrontendHosting
  rw [if_pos ⟨hl, hs⟩]

/-! ## Helper lemmas: inversion of the collection pass -/

theorem askAll_inv (now : String) (s : Script) (meta : ProjectMetadata)
    (r : Script) (h : askAll now s = some (some meta, r)) :
    ∃ pn net dep fh dom ints,
      validateProjectName pn = none ∧
      validateDomain dom = none ∧
      (fh = fhDefault dep ∨ fh ∈ fhOptions dep) ∧
      meta = normalizeFrontendHosting
        { projectName := jsTrim pn
          network := net
          deploymentType := dep
          frontendHosting := fh
          domain := normalizeDomain dom
          integrations := ints
          createdAtIso := now } := by
  unfold askAll at h
  split at h
  · exact Option.noConfusion h
  · simp at h
  · rename_i pn r1 hpn
    split at h
    · exact Option.noConfusion h
    · simp at h
    · rename_i net r2 hnet
      split at h
      · exact Option.noConfusion h
      · simp at h
      · rename_i dep r3 hdep
        split at h
        · exact Option.noConfusion h
        · simp at h
        · rename_i fh r4 hfh
          split at h
          · exact Option.noConfusion h
          · simp at h
          · rename_i dom r5 hdom
            split at h
            · exact Option.noConfusion h
            · simp at h
            · rename_i ints r6 hints
              simp only [Option.some.injEq, Prod.mk.injEq] at h
              refine ⟨pn, net, dep, fh, dom, ints, ?_, ?_, ?_, ?_⟩
              · exact runText_value _ _ _ _ _ hpn
              · exact runText_value _ _ _ _ _ hdom
              · exact runSelect_value _ _ _ _ _ _ hfh
              · exact h.1.symm

/-! ## Helper lemmas: shapes of a single-field edit -/

theorem editField_shape (m : ProjectMetadata) (f : Field) (s : Script)
    (m' : ProjectMetadata) (r : Script)
    (h : editField m f s = some (m', r)) :
    m' = m ∨
    (∃ v, validateProjectName v = none ∧
      m' = { m with projectName := jsTrim v }) ∨
    (∃ v, m' = { m with network := v }) ∨
    (∃ v, m' = normalizeFrontendHosting { m with deploymentType := v }) ∨
    (∃ v, (v = fhEditInitial m ∨ v ∈ fhOptions m.deploymentType) ∧
      m' = { m with frontendHosting := v }) ∨
    (∃ v, validateDomain v = none ∧
      m' = { m with domain := normalizeDomain v }) ∨
    (∃ v, m' = { m with integrations := v }) := by
  cases f with
  | projectName =>
    simp only [editField] at h
    split at h
    · exact Option.noConfusion h
    · left
      simp only [Option.some.injEq, Prod.mk.injEq] at h
      exact h.1.symm
    · rename_i v r2 hv
      right; left
      refine ⟨v, runText_value _ _ _ _ _ hv, ?_⟩
      simp only [Option.some.injEq, Prod.mk.injEq] at h
      exact h.1.symm
  | network =>
    simp only [editField] at h
    split at h
    · exact Option.noConfusion h
    · left
      simp only [Option.some.injEq, Prod.mk.injEq] at h
      exact h.1.symm
    · rename_i v r2 hv
      right; right; left
      refine ⟨v, ?_⟩
      simp only [Option.some.injEq, Prod.mk.injEq] at h
      exact h.1.symm
  | deploymentType =>
    simp only [editField] at h
    split at h
    · exact Option.noConfusion h
    · left
      simp only [Option.some.injEq, Prod.mk.injEq] at h
      exact h.1.symm
    · rename_i v r2 hv
      right; right; right; left
      refine ⟨v, ?_⟩
      simp only [Option.some.injEq, Prod.mk.injEq] at h
      exact h.1.symm
  | frontendHosting =>
    simp only [editField] at h
    split at h
    · exact Option.noConfusion h
    · left
      simp only [Option.some.injEq, Prod.mk.injEq] at h
      exact h.1.symm
    · rename_i v r2 hv
      right; right; right; right; left
      refine ⟨v, runSelect_value _ _ _ _ _ _ hv, ?_⟩
      simp only [Option.some.injEq, Prod.mk.injEq] at h
      exact h.1.symm
  | domain =>
    simp only [editField] at h
    split at h
    · exact Option.noConfusion h
    · left
      simp only [Option.some.injEq, Prod.mk.injEq] at h
      exact h.1.symm
    · rename_i v r2 hv
      right; right; right; right; right; left
      refine ⟨v, runText_value _ _ _ _ _ hv, ?_⟩
      simp only [Option.some.injEq, Prod.mk.injEq] at h
      exact h.1.symm
  | integrations =>
    simp only [editField] at h
    split at h
    · exact Option.noConfusion h
    · left
      simp only [Option.some.injEq, Prod.mk.injEq] at h
      exact h.1.symm
    · rename_i v r2 hv
      right; right; right; right; right; right
      refine ⟨v, ?_⟩
      simp only [Option.some.injEq, Prod.mk.injEq] at h
      exact h.1.symm

/-! ## Helper lemmas: invariant preservation -/

theorem editField_hostingOk (m : ProjectMetadata) (f : Field) (s : Script)
    (m' : ProjectMetadata) (r : Script) (hm : hostingOk m)
    (h : editField m f s = some (m', r)) : hostingOk m' := by
  rcases editField_shape m f s m' r h with
    he | ⟨v, hv, he⟩ | ⟨v, he⟩ | ⟨v, he⟩ | ⟨v, hv, he⟩ | ⟨v, hv, he⟩ |
    ⟨v, he⟩
  · rw [he]; exact hm
  · rw [he]; exact hm
  · rw [he]; exact hm
  · rw [he]; exact hostingOk_normalize _
  · rw [he]
    intro hl hs
    have hl' : m.deploymentType = DeploymentType.local := hl
    have hs' : v = FrontendHosting.sameVps := hs
    rcases hv with hv | hv
    · rw [hv] at hs'
      unfold fhEditInitial at hs'
      split at hs'
      · exact FrontendHosting.noConfusion hs'
      · rename_i hcond
        exact hcond ⟨hl', hs'⟩
    · rw [hl'] at hv
      rw [hs'] at hv
      simp [fhOptions] at hv
  · rw [he]; exact hm
  · rw [he]; exact hm

theorem editField_nameOk (m : ProjectMetadata) (f : Field) (s : Script)
    (m' : ProjectMetadata) (r : Script) (hm : nameOk m)
    (h : editField m f s = some (m', r)) : nameOk m' := by
  rcases editField_shape m f s m' r h with
    he | ⟨v, hv, he⟩ | ⟨v, he⟩ | ⟨v, he⟩ | ⟨v, hv, he⟩ | ⟨v, hv, he⟩ |
    ⟨v, he⟩
  · rw [he]; exact hm
  · rw [he]
    exact nameOk_of_valid v hv
  · rw [he]; exact hm
  · rw [he]
    unfold nameOk
    rw [(normalizeFrontendHosting_fields _).1]
    exact hm
  · rw [he]; exact hm
  · rw [he]; exact hm
  · rw [he]; exact hm

theorem editField_domOk (m : ProjectMetadata) (f : Field) (s : Script)
    (m' : ProjectMetadata) (r : Script) (hm : domOk m)
    (h : editField m f s = some (m', r)) : domOk m' := by
  rcases editField_shape m f s m' r h with
    he | ⟨v, hv, he⟩ | ⟨v, he⟩ | ⟨v, he⟩ | ⟨v, hv, he⟩ | ⟨v, hv, he⟩ |
    ⟨v, he⟩
  · rw [he]; exact hm
  · rw [he]; exact hm
  · rw [he]; exact hm
  · rw [he]
    unfold domOk
    rw [(normalizeFrontendHosting_fields _).2.2.2.1]
    exact hm
  · rw [he]; exact hm
  · rw [he]
    intro d hd
    rcases validateDomain_none v hv with hn | ⟨t, ht, hval⟩
    · rw [hn] at hd
      exact Option.noConfusion hd
    · rw [ht] at hd
      cases hd
      exact ⟨hval, domainLooksValid_spec _ hval⟩
  · rw [he]; exact hm

theorem editField_createdAt (m : ProjectMetadata) (f : Field) (s : Script)
    (m' : ProjectMetadata) (r : Script)
    (h : editField m f s = some (m', r)) :
    m'.createdAtIso = m.createdAtIso := by
  rcases editField_shape m f s m' r h with
    he | ⟨v, hv, he⟩ | ⟨v, he⟩ | ⟨v, he⟩ | ⟨v, hv, he⟩ | ⟨v, hv, he⟩ |
    ⟨v, he⟩
  · rw [he]
  · rw [he]
  · rw [he]
  · rw [he]
    exact (normalizeFrontendHosting_fields _).2.2.2.2.2
  · rw [he]
  · rw [he]
  · rw [he]

theorem editLoop_preserves (P : ProjectMetadata → Prop)
    (hP : ∀ m f s m' r, P m → editField m f s = some (m', r) → P m') :
    ∀ fuel m s o m' r, P m →
      editLoop fuel m s = some ((o, m'), r) → P m' := by
  intro fuel
  induction fuel with
  | zero =>
    intro m s o m' r _ h
    simp [editLoop] at h
  | succ fuel ih =>
    intro m s o m' r hm h
    unfold editLoop at h
    split at h
    · exact Option.noConfusion h
    · simp only [Option.some.injEq, Prod.mk.injEq] at h
      rw [← h.1.2]
      exact hm
    · simp only [Option.some.injEq, Prod.mk.injEq] at h
      rw [← h.1.2]
      exact hm
    · simp only [Option.some.injEq, Prod.mk.injEq] at h
      rw [← h.1.2]
      exact hm
    · simp only [Option.some.injEq, Prod.mk.injEq] at h
      rw [← h.1.2]
      exact hm
    · split at h
      · exact Option.noConfusion h
      · exact ih m _ o m' r hm h
      · rename_i hf2
        split at h
        · exact Option.noConfusion h
        · rename_i m2 r3 hef
          exact ih m2 _ o m' r (hP m _ _ m2 _ hm hef) h

theorem collectGo_sound (P : ProjectMetadata → Prop)
    (hAsk : ∀ now s meta r, askAll now s = some (some meta, r) → P meta)
    (hP : ∀ m f s m' r, P m → editField m f s = some (m', r) → P m') :
    ∀ clock fuel k s meta r,
      collectGo clock k fuel s = some (some meta, r) → P meta := by
  intro clock fuel
  induction fuel with
  | zero =>
    intro k s meta r h
    simp [collectGo] at h
  | succ fuel ih =>
    intro k s meta r h
    unfold collectGo at h
    split at h
    · exact Option.noConfusion h
    · simp at h
    · rename_i m0 r0 hask
      split at h
      · exact Option.noConfusion h
      · rename_i m2 r2 hloop
        simp only [Option.some.injEq, Prod.mk.injEq] at h
        rw [← h.1]
        exact editLoop_preserves P hP _ _ _ _ _ _ (hAsk _ _ _ _ hask) hloop
      · simp at h
      · exact ih (k + 1) _ meta r h

theorem askAll_createdAt (now : String) (s : Script)
    (meta : ProjectMetadata) (r : Script)
    (h : askAll now s = some (some meta, r)) : meta.createdAtIso = now := by
  obtain ⟨pn, net, dep, fh, dom, ints, -, -, -, hmeta⟩ :=
    askAll_inv now s meta r h
  rw [hmeta]
  exact (normalizeFrontendHosting_fields _).2.2.2.2.2

theorem collectGo_createdAt (clock : Nat → String) :
    ∀ fuel k s meta r, collectGo clock k fuel s = some (some meta, r) →
      ∃ j, k ≤ j ∧ meta.createdAtIso = clock j := by
  intro fuel
  induction fuel with
  | zero =>
    intro k s meta r h
    simp [collectGo] at h
  | succ fuel ih =>
    intro k s meta r h
    unfold collectGo at h
    split at h
    · exact Option.noConfusion h
    · simp at h
    · rename_i m0 r0 hask
      split at h
      · exact Option.noConfusion h
      · rename_i m2 r2 hloop
        simp only [Option.some.injEq, Prod.mk.injEq] at h
        refine ⟨k, Nat.le_refl k, ?_⟩
        rw [← h.1]
        have hpres := editLoop_preserves
          (fun m => m.createdAtIso = clock k)
          (fun m f s2 m' r3 hm he => (editField_createdAt m f s2 m' r3 he).trans hm)
          _ _ _ _ _ _ (askAll_createdAt _ _ _ _ hask) hloop
        exact hpres
      · simp at h
      · obtain ⟨j, hle, hj⟩ := ih (k + 1) _ meta r h
        exact ⟨j, Nat.le_trans (Nat.le_succ k) hle, hj⟩

theorem askAll_hostingOk (now : String) (s : Script)
    (meta : ProjectMetadata) (r : Script)
    (h : askAll now s = some (some meta, r)) : hostingOk meta := by
  obtain ⟨pn, net, dep, fh, dom, ints, -, -, -, hmeta⟩ :=
    askAll_inv now s meta r h
  rw [hmeta]
  exact hostingOk_normalize _

theorem askAll_nameOk (now : String) (s : Script)
    (meta : ProjectMetadata) (r : Script)
    (h : askAll now s = some (some meta, r)) : nameOk meta := by
  obtain ⟨pn, net, dep, fh, dom, ints, hpn, -, -, hmeta⟩ :=
    askAll_inv now s meta r h
  rw [hmeta]
  unfold nameOk
  rw [(normalizeFrontendHosting_fields _).1]
  exact nameOk_of_valid pn hpn

theorem askAll_domOk (now : String) (s : Script)
    (meta : ProjectMetadata) (r : Script)
    (h : askAll now s = some (some meta, r)) : domOk meta := by
  obtain ⟨pn, net, dep, fh, dom, ints, -, hdom, -, hmeta⟩ :=
    askAll_inv now s meta r h
  rw [hmeta]
  unfold domOk
  rw [(normalizeFrontendHosting_fields _).2.2.2.1]
  intro d hd
  have hd' : normalizeDomain dom = some d := hd
  rcases validateDomain_none dom hdom with hn | ⟨t, ht, hval⟩
  · rw [hn] at hd'
    exact Option.noConfusion hd'
  · rw [ht] at hd'
    cases hd'
    exact ⟨hval, domainLooksValid_spec _ hval⟩

theorem collectGo_startOver (clock : Nat → String) (k fuel : Nat)
    (s r r2 : Script) (m m' : ProjectMetadata)
    (h1 : askAll (clock k) s = some (some m, r))
    (h2 : editLoop (fuel + 1) m r =
      some ((EditOutcome.startOver, m'), r2)) :
    collectGo clock k (fuel + 1) s = collectGo clock (k + 1) fuel r2 := by
  simp only [collectGo, h1, h2]

/-! ## Concrete artifacts used by witnesses -/

/-- Scenario A input script: name, network, deployment, hosting, domain,
integrations. -/
def scriptA : Script :=
  [Input.str ("My Gw"), Input.net Network.testnet,
   Input.dep DeploymentType.vps, Input.fh FrontendHosting.sameVps,
   Input.str ("HTTPS://API.Example.com/"), Input.ints []]

/-- Scenario A expected configuration. -/
def metaA : ProjectMetadata :=
  { projectName := ("My Gw")
    network := Network.testnet
    deploymentType := DeploymentType.vps
    frontendHosting := FrontendHosting.sameVps
    domain := some ("api.example.com")
    integrations := []
    createdAtIso := ("T") }

/-- Scenario A script followed by an immediate confirm. -/
def scriptAConfirm : Script := scriptA ++ [Input.act ReviewAction.confirm]

/-- A full pass choosing a local-only deployment, then confirm. -/
def scriptLocal : Script :=
  [Input.str ("a"), Input.accept, Input.dep DeploymentType.local,
   Input.accept, Input.accept, Input.accept, Input.act ReviewAction.confirm]

/-- Configuration produced by `scriptLocal`. -/
def metaLocal : ProjectMetadata :=
  { projectName := ("a")
    network := Network.testnet
    deploymentType := DeploymentType.local
    frontendHosting := FrontendHosting.vercel
    domain := none
    integrations := []
    createdAtIso := ("T") }

/-- A first pass, a start-over at the review prompt, then a second pass
with a different name, then confirm. -/
def scriptStartOver : Script :=
  [Input.str ("a"), Input.accept, Input.accept, Input.accept,
   Input.str (""), Input.accept, Input.act ReviewAction.startOver,
   Input.str ("b"), Input.accept, Input.accept, Input.accept,
   Input.accept, Input.accept, Input.act ReviewAction.confirm]

/-- The suffix of `scriptStartOver` after the discarded first pass and the
start-over action. -/
def scriptSecondPass : Script :=
  [Input.str ("b"), Input.accept, Input.accept, Input.accept,
   Input.accept, Input.accept, Input.act ReviewAction.confirm]

/-! ## Claims -/

/-- C1: every configuration produced by a collection pass, preserved across
any single-field edit (hence shown at each review prompt), returned by the
edit loop, or returned by `collectProjectMetadata`, satisfies
`deploymentType = local → frontendHosting ≠ same-vps`; and a violating
combination is rewritten by `normalizeFrontendHosting` to `vercel` — in
particular a deployment-type edit to local-only is accepted and rewrites
the hosting rather than being rejected. -/
theorem c1_hosting_consistency :
    (∀ now s meta r, askAll now s = some (some meta, r) → hostingOk meta) ∧
    (∀ m f s m' r, hostingOk m → editField m f s = some (m', r) →
      hostingOk m') ∧
    (∀ fuel m s o m' r, hostingOk m →
      editLoop fuel m s = some ((o, m'), r) → hostingOk m') ∧
    (∀ clock s meta r,
      collectProjectMetadata clock s = some (some meta, r) →
      hostingOk meta) ∧
    (∀ m, m.deploymentType = DeploymentType.local →
      m.frontendHosting = FrontendHosting.sameVps →
      normalizeFrontendHosting m =
        { m with frontendHosting := FrontendHosting.vercel }) ∧
    (∀ m r, m.frontendHosting = FrontendHosting.sameVps →
      editField m Field.deploymentType (Input.dep DeploymentType.local :: r) =
        some
          ({ m with
              deploymentType := DeploymentType.local
              frontendHosting := FrontendHosting.vercel }, r)) := by
  refine ⟨askAll_hostingOk, editField_hostingOk, ?_, ?_, normalize_rewrites,
    ?_⟩
  · exact fun fuel m s o m' r hm h =>
      editLoop_preserves hostingOk editField_hostingOk fuel m s o m' r hm h
  · intro clock s meta r h
    unfold collectProjectMetadata at h
    exact collectGo_sound hostingOk askAll_hostingOk editField_hostingOk
      clock _ 0 s meta r h
  · intro m r hs
    simp [editField, runSelect, extractDep, deploymentOptions,
      normalizeFrontendHosting, hs]

/-- Witness for C1: the local-only run `scriptLocal` is accepted and its
result satisfies the hosting invariant. -/
theorem c1_witness :
    collectProjectMetadata (fun _ => ("T")) scriptLocal =
      some (some metaLocal, []) ∧ hostingOk metaLocal :=
  ⟨by decide,
   c1_hosting_consistency.2.2.2.1 (fun _ => ("T")) scriptLocal metaLocal []
     (by decide)⟩

/-- C2: every accepted configuration has a null domain or one matching the
validator's grammar and hence the grammar worded by the spec; normalized
non-blank input outside that grammar is rejected with the corrective
message. -/
theorem c2_domain_grammar :
    (∀ clock s meta r,
      collectProjectMetadata clock s = some (some meta, r) →
      ∀ d, meta.domain = some d →
        domainLooksValid d = true ∧ specDomainGrammar d = true) ∧
    (∀ v t, normalizeDomain v = some t → specDomainGrammar t = false →
      validateDomain v = some msgBadDomain) ∧
    (∀ v t, normalizeDomain v = some t → domainLooksValid t = false →
      validateDomain v = some msgBadDomain) := by
  have hrej : ∀ v t, normalizeDomain v = some t →
      domainLooksValid t = false → validateDomain v = some msgBadDomain := by
    intro v t hn hd
    unfold validateDomain
    rw [hn]
    simp [hd]
  refine ⟨?_, ?_, hrej⟩
  · intro clock s meta r h
    unfold collectProjectMetadata at h
    exact collectGo_sound domOk askAll_domOk editField_domOk
      clock _ 0 s meta r h
  · intro v t hn hspec
    refine hrej v t hn ?_
    by_contra hv
    rw [domainLooksValid_spec t (by simpa using hv)] at hspec
    exact Bool.noConfusion hspec

/-- Witness for C2: the accepted Scenario A domain passes both grammars. -/
theorem c2_witness :
    domainLooksValid ("api.example.com") = true ∧
    specDomainGrammar ("api.example.com") = true :=
  c2_domain_grammar.1 (fun _ => ("T")) scriptAConfirm metaA [] (by decide)
    ("api.example.com") (by decide)

/-- C3: the stored domain of any input is exactly the spec's pipeline
(trim, lower-case, strip one scheme, strip trailing slashes, blank to
null), and Scenario A's input is accepted and stored as
`api.example.com`. -/
theorem c3_domain_normalization :
    (∀ v, normalizeDomain v = specNormalizeDomain v) ∧
    normalizeDomain ("HTTPS://API.Example.com/") =
      some ("api.example.com") ∧
    validateDomain ("HTTPS://API.Example.com/") = none ∧
    askAll ("T") scriptA = some (some metaA, []) := by
  refine ⟨?_, by decide, by decide, by decide⟩
  intro v
  unfold normalizeDomain specNormalizeDomain
  split
  · rename_i hv
    rw [hv]
    decide
  · rfl

/-- C4: the cross-field normalizer is idempotent on every configuration. -/
theorem c4_normalizer_idempotent (m : ProjectMetadata) :
    normalizeFrontendHosting (normalizeFrontendHosting m) =
      normalizeFrontendHosting m := by
  by_cases hcond : m.deploymentType = DeploymentType.local ∧
      m.frontendHosting = FrontendHosting.sameVps
  · rw [normalize_rewrites m hcond.1 hcond.2]
    unfold normalizeFrontendHosting
    rw [if_neg]
    intro hc
    exact FrontendHosting.noConfusion hc.2
  · unfold normalizeFrontendHosting
    rw [if_neg hcond, if_neg hcond]

/-- C5: cancelling the field-selection prompt, or the re-prompt of any of
the six fields, leaves the configuration untouched and loops back to the
review prompt. -/
theorem c5_edit_isolation :
    (∀ fuel m r, editLoop (fuel + 1) m
        (Input.act ReviewAction.edit :: Input.cancel :: r) =
      editLoop fuel m r) ∧
    (∀ m f r, editField m f (Input.cancel :: r) = some (m, r)) ∧
    (∀ fuel m f r, editLoop (fuel + 1) m
        (Input.act ReviewAction.edit :: Input.fld f :: Input.cancel :: r) =
      editLoop fuel m r) := by
  refine ⟨?_, ?_, ?_⟩
  · intro fuel m r
    simp [editLoop, runSelect, extractAct, extractFld, reviewOptions]
  · intro m f r
    cases f <;> simp [editField, runText, runSelect, runMulti]
  · intro fuel m f r
    cases f <;> simp [editLoop, runSelect, extractAct, extractFld,
      reviewOptions, fieldOptions, editField, runText, runMulti]

/-- C6: a cancellation at any prompt of the collection pass makes the whole
pass return the cancelled result, and `collectProjectMetadata` then
returns null immediately, exposing no partial configuration. -/
theorem c6_cancel_aborts :
    (∀ clock s r, askAll (clock 0) s = some (none, r) →
      collectProjectMetadata clock s = some (none, r)) ∧
    (∀ now r, askAll now (Input.cancel :: r) = some (none, r)) ∧
    (∀ now pn r, validateProjectName pn = none →
      askAll now (Input.str pn :: Input.cancel :: r) = some (none, r)) ∧
    (∀ now pn n r, validateProjectName pn = none →
      askAll now (Input.str pn :: Input.net n :: Input.cancel :: r) =
        some (none, r)) ∧
    (∀ now pn n d r, validateProjectName pn = none →
      askAll now (Input.str pn :: Input.net n :: Input.dep d ::
        Input.cancel :: r) = some (none, r)) ∧
    (∀ now pn n d fh r, validateProjectName pn = none → fh ∈ fhOptions d →
      askAll now (Input.str pn :: Input.net n :: Input.dep d ::
        Input.fh fh :: Input.cancel :: r) = some (none, r)) ∧
    (∀ now pn n d fh dom r, validateProjectName pn = none →
      fh ∈ fhOptions d → validateDomain dom = none →
      askAll now (Input.str pn :: Input.net n :: Input.dep d ::
        Input.fh fh :: Input.str dom :: Input.cancel :: r) =
        some (none, r)) := by
  refine ⟨?_, ?_, ?_, ?_, ?_, ?_, ?_⟩
  · intro clock s r h
    unfold collectProjectMetadata
    cases s with
    | nil => simp [askAll, runText] at h
    | cons i t =>
      unfold collectGo
      rw [h]
  · intro now r
    simp [askAll, runText]
  · intro now pn r hpn
    simp [askAll, runText, runSelect, hpn]
  · intro now pn n r hpn
    cases n <;>
      simp [askAll, runText, runSelect, extractNet, networkOptions, hpn]
  · intro now pn n d r hpn
    cases n <;> cases d <;>
      simp [askAll, runText, runSelect, extractNet, extractDep,
        networkOptions, deploymentOptions, hpn]
  · intro now pn n d fh r hpn hfh
    cases n <;> cases d <;>
      simp [askAll, runText, runSelect, extractNet, extractDep, extractFh,
        networkOptions, deploymentOptions, hpn, hfh]
  · intro now pn n d fh dom r hpn hfh hdom
    cases n <;> cases d <;>
      simp [askAll, runText, runSelect, runMulti, extractNet, extractDep,
        extractFh, networkOptions, deploymentOptions, hpn, hfh, hdom]

/-- Witness for C6: cancelling at the network prompt of the very first
pass aborts the pass and the whole session. -/
theorem c6_witness :
    askAll ("T") [Input.str ("My Gw"), Input.cancel] = some (none, []) ∧
    collectProjectMetadata (fun _ => ("T"))
      [Input.str ("My Gw"), Input.cancel] = some (none, []) := by
  constructor
  · exact c6_cancel_aborts.2.2.1 ("T") ("My Gw") [] (by decide)
  · exact c6_cancel_aborts.1 (fun _ => ("T"))
      [Input.str ("My Gw"), Input.cancel] [] (by decide)

/-- C7: after a start-over the session continues as a fresh run on the
remaining script — nothing of the discarded configuration flows into it —
and a fresh pass that accepts every default yields exactly the fixed
defaults (testnet, hosted VPS, same-VPS hosting, no domain, no
integrations). -/
theorem c7_start_over_discards :
    (∀ clock k fuel s r r2 m m',
      askAll (clock k) s = some (some m, r) →
      editLoop (fuel + 1) m r = some ((EditOutcome.startOver, m'), r2) →
      collectGo clock k (fuel + 1) s = collectGo clock (k + 1) fuel r2) ∧
    (∀ now pn r, validateProjectName pn = none →
      askAll now (Input.str pn :: Input.accept :: Input.accept ::
          Input.accept :: Input.accept :: Input.accept :: r) =
        some (some
          { projectName := jsTrim pn
            network := Network.testnet
            deploymentType := DeploymentType.vps
            frontendHosting := FrontendHosting.sameVps
            domain := none
            integrations := []
            createdAtIso := now }, r)) := by
  constructor
  · exact fun clock k fuel s r r2 m m' h1 h2 =>
      collectGo_startOver clock k fuel s r r2 m m' h1 h2
  · intro now pn r hpn
    have hb : validateDomain ("") = none := by decide
    have hn : normalizeDomain ("") = none := by decide
    simp [askAll, runText, runSelect, runMulti, hpn, hb, hn, fhDefault,
      normalizeFrontendHosting]

/-- Witness for C7: on `scriptStartOver` the run after the start-over is
literally the run of the remaining script, and the second pass re-starts
from the fixed defaults. -/
theorem c7_witness :
    collectGo (fun k => if k = 0 then ("T0") else ("T1")) 0 2
        scriptStartOver =
      collectGo (fun k => if k = 0 then ("T0") else ("T1")) 1 1
        scriptSecondPass ∧
    askAll ("T1") scriptSecondPass =
      some (some
        { projectName := ("b")
          network := Network.testnet
          deploymentType := DeploymentType.vps
          frontendHosting := FrontendHosting.sameVps
          domain := none
          integrations := []
          createdAtIso := ("T1") }, [Input.act ReviewAction.confirm]) := by
  constructor
  · exact c7_start_over_discards.1
      (fun k => if k = 0 then ("T0") else ("T1")) 0 1 scriptStartOver
      (Input.act ReviewAction.startOver :: scriptSecondPass)
      scriptSecondPass
      { projectName := ("a")
        network := Network.testnet
        deploymentType := DeploymentType.vps
        frontendHosting := FrontendHosting.sameVps
        domain := none
        integrations := []
        createdAtIso := ("T0") }
      { projectName := ("a")
        network := Network.testnet
        deploymentType := DeploymentType.vps
        frontendHosting := FrontendHosting.sameVps
        domain := none
        integrations := []
        createdAtIso := ("T0") }
      (by decide) (by decide)
  · have h := c7_start_over_discards.2 ("T1") ("b")
      [Input.act ReviewAction.confirm] (by decide)
    simpa using h

/-- C8: accepted configurations carry a trimmed project name of length 1
to 64; the validator rejects blank-after-trim and over-64 input with the
respective messages, and a rejected input re-prompts instead of ending the
run. -/
theorem c8_project_name :
    (∀ clock s meta r,
      collectProjectMetadata clock s = some (some meta, r) →
      meta.projectName = jsTrim meta.projectName ∧
      1 ≤ meta.projectName.data.length ∧
      meta.projectName.data.length ≤ 64) ∧
    (∀ v, jsTrim v = "" → validateProjectName v = some msgNameRequired) ∧
    (∀ v, jsTrim v ≠ "" → 64 < v.data.length →
      validateProjectName v = some msgNameTooLong) ∧
    (∀ d v msg rest, validateProjectName v = some msg →
      runText d validateProjectName (Input.str v :: rest) =
        runText d validateProjectName rest) := by
  refine ⟨?_, ?_, ?_, ?_⟩
  · intro clock s meta r h
    unfold collectProjectMetadata at h
    have hn := collectGo_sound nameOk askAll_nameOk editField_nameOk
      clock _ 0 s meta r h
    exact hn
  · intro v hv
    unfold validateProjectName
    rw [if_pos hv]
  · intro v hv hlen
    unfold validateProjectName
    rw [if_neg hv, if_pos hlen]
  · intro d v msg rest hmsg
    simp [runText, hmsg]

/-- Witness for C8: blank input is rejected with the required-name message,
and the Scenario A run stores a trimmed in-range name. -/
theorem c8_witness :
    validateProjectName ("   ") = some msgNameRequired ∧
    (metaA.projectName = jsTrim metaA.projectName ∧
      1 ≤ metaA.projectName.data.length ∧
      metaA.projectName.data.length ≤ 64) :=
  ⟨c8_project_name.2.1 ("   ") (by decide),
   c8_project_name.1 (fun _ => ("T")) scriptAConfirm metaA [] (by decide)⟩

/-- C9: `createdAtIso` is set by the collection pass to that pass's clock
value, no single-field edit or edit-loop run ever changes it, and the
configuration returned by the session carries the timestamp of one of its
own passes — the pass that produced it. -/
theorem c9_created_at_immutable :
    (∀ now s meta r, askAll now s = some (some meta, r) →
      meta.createdAtIso = now) ∧
    (∀ m f s m' r, editField m f s = some (m', r) →
      m'.createdAtIso = m.createdAtIso) ∧
    (∀ fuel m s o m' r, editLoop fuel m s = some ((o, m'), r) →
      m'.createdAtIso = m.createdAtIso) ∧
    (∀ (clock : Nat → String) (k fuel : Nat) s m r m2 r2 o,
      askAll (clock k) s = some (some m, r) →
      editLoop fuel m r = some ((o, m2), r2) →
      m2.createdAtIso = clock k) ∧
    (∀ clock k fuel s meta r,
      collectGo clock k fuel s = some (some meta, r) →
      ∃ j, k ≤ j ∧ meta.createdAtIso = clock j) := by
  have hloop : ∀ fuel m s o m' r, editLoop fuel m s = some ((o, m'), r) →
      m'.createdAtIso = m.createdAtIso := by
    intro fuel m s o m' r h
    exact editLoop_preserves (fun x => x.createdAtIso = m.createdAtIso)
      (fun a f s2 a' r2 ha he =>
        (editField_createdAt a f s2 a' r2 he).trans ha)
      fuel m s o m' r rfl h
  refine ⟨askAll_createdAt, editField_createdAt, hloop, ?_, ?_⟩
  · intro clock k fuel s m r m2 r2 o h1 h2
    rw [hloop fuel m r o m2 r2 h2]
    exact askAll_createdAt (clock k) s m r h1
  · exact fun clock k fuel s meta r h =>
      collectGo_createdAt clock fuel k s meta r h

/-- Witness for C9: the configuration confirmed after the `scriptLocal`
pass carries that pass's timestamp. -/
theorem c9_witness : metaLocal.createdAtIso = (fun _ => ("T")) 0 :=
  c9_created_at_immutable.2.2.2.1 (fun _ => ("T")) 0 7 scriptLocal
    metaLocal [Input.act ReviewAction.confirm] metaLocal []
    EditOutcome.confirm (by decide) (by decide)

/-- C10: input that normalizes to blank — the empty string, a bare scheme,
only slashes, or only whitespace — is accepted without a rejection message
and clears the domain field to null. -/
theorem c10_blank_clears :
    (∀ v, normalizeDomain v = none → validateDomain v = none) ∧
    (∀ m v r, normalizeDomain v = none →
      editField m Field.domain (Input.str v :: r) =
        some ({ m with domain := none }, r)) ∧
    normalizeDomain ("https://") = none ∧
    normalizeDomain ("///") = none ∧
    normalizeDomain ("   ") = none := by
  refine ⟨validateDomain_of_blank, ?_, by decide, by decide, by decide⟩
  intro m v r h
  simp [editField, runText, validateDomain_of_blank v h, h]

/-- Witness for C10: a bare scheme is accepted and clears the field. -/
theorem c10_witness :
    validateDomain ("https://") = none ∧
    editField metaA Field.domain [Input.str ("https://")] =
      some ({ metaA with domain := none }, []) :=
  ⟨c10_blank_clears.1 ("https://") (by decide),
   c10_blank_clears.2.1 metaA ("https://") [] (by decide)⟩

end Gateway
